import Mathlib

/-!
Shallow embedding of the i18n translation server (`src/routes/i18n.js`).

Translation documents are JSON-like trees: string leaves or objects, where an
object is an ordered list of key/value properties (mirroring JS object
semantics: property order preserved, assignment to an existing key keeps its
position, new keys are appended, `delete` removes the property).

Dot-separated key paths are split exactly as JS `key.split('.')` does
(`splitDot`).  The nested-key codec (`getNestedValue`, `setNestedKey`,
`deleteNestedKey`, `checkKeyExists`), the version counter
(`incrementVersionTriple`), the propagation engine
(`propagateKeyToAllLanguages`) and the HTTP handlers (`createKey`,
`updateKey`, `renameKey`, `deleteKey`, `deleteLanguage`) are translated from
the source.  The filesystem (one JSON file per language code plus the
manifest) is modelled as a `ServerState`; timestamps and the generated zip
archives are not modelled (no claim mentions them).
-/

/-- A JSON-like translation tree: a string leaf or an object
(ordered list of key/value properties). -/
inductive JTree where
  | leaf : String → JTree
  | node : List (String × JTree) → JTree

/-- A JS object: an ordered association list of properties. -/
abbrev Obj := List (String × JTree)

/-- Property read `o[k]` (first matching key). -/
def objGet : Obj → String → Option JTree
  | [], _ => none
  | (k', v) :: rest, k => if k' = k then some v else objGet rest k

/-- Property assignment `o[k] = v`: overwrites in place if the key is
present, otherwise appends (JS object semantics). -/
def objSet : Obj → String → JTree → Obj
  | [], k, v => [(k, v)]
  | (k', v') :: rest, k, v =>
      if k' = k then (k, v) :: rest else (k', v') :: objSet rest k v

/-- Property deletion `delete o[k]`. -/
def objDel : Obj → String → Obj
  | [], _ => []
  | (k', v) :: rest, k =>
      if k' = k then objDel rest k else (k', v) :: objDel rest k

/-- JS `key.split('.')` on the character list. -/
def splitDotChars : List Char → List (List Char)
  | [] => [[]]
  | c :: cs =>
      let r := splitDotChars cs
      if c = '.' then [] :: r
      else
        match r with
        | [] => [[c]]
        | h :: t => (c :: h) :: t

/-- JS `key.split('.')`: split a key path on every dot. -/
def splitDot (s : String) : List String :=
  (splitDotChars s.data).map (fun l => ⟨l⟩)

/-- `getNestedValue`'s walk (src lines 361-369): descend through object
properties; fail if an intermediate is absent or not an object. -/
def getNestedVal : JTree → List String → Option JTree
  | t, [] => some t
  | JTree.leaf _, _ :: _ => none
  | JTree.node o, p :: rest =>
      match objGet o p with
      | none => none
      | some v => getNestedVal v rest

/-- `getNestedValue(obj, keyPath)` from the source (lines 361-369). -/
def getNestedValue (obj : Obj) (keyPath : String) : Option JTree :=
  getNestedVal (JTree.node obj) (splitDot keyPath)

/-- `setNestedKey`'s walk (src lines 820-829): create/replace intermediate
objects for all segments but the last (`if (!cur[p] || typeof cur[p] !==
'object') cur[p] = \x7b\x7d`), then assign the final segment. -/
def setNestedGo : Obj → List String → JTree → Obj
  | o, [], _ => o
  | o, p :: parts, v =>
      match parts with
      | [] => objSet o p v
      | _ :: _ =>
          let child : Obj :=
            match objGet o p with
            | some (JTree.node c) => c
            | _ => []
          objSet o p (JTree.node (setNestedGo child parts v))

/-- `setNestedKey(root, keyPath, value)` from the source (lines 820-829). -/
def setNestedKey (root : Obj) (keyPath : String) (value : JTree) : Obj :=
  setNestedGo root (splitDot keyPath) value

/-- `deleteNestedKey`'s walk (src lines 370-393 and 464-488): walk through
intermediate objects (fail if any is absent or not an object), remove the
leaf if present, and — when `cleanEmpty` — prune now-empty intermediate
objects bottom-up, stopping at the first non-empty ancestor.  Returns the
updated object and whether a removal occurred. -/
def deleteNestedGo (cleanEmpty : Bool) : Obj → List String → Obj × Bool
  | o, [] => (o, false)
  | o, p :: parts =>
      match parts with
      | [] =>
          if (objGet o p).isSome then (objDel o p, true) else (o, false)
      | _ :: _ =>
          match objGet o p with
          | some (JTree.node c) =>
              let r := deleteNestedGo cleanEmpty c parts
              if r.2 then
                (if cleanEmpty && r.1.isEmpty then objDel o p
                 else objSet o p (JTree.node r.1), true)
              else (o, false)
          | _ => (o, false)

/-- `deleteNestedKey(obj, keyPath)` as defined in the rename-key handler
(src lines 370-393): always prunes empty ancestors. -/
def deleteNestedKey (obj : Obj) (keyPath : String) : Obj × Bool :=
  deleteNestedGo true obj (splitDot keyPath)

/-- `checkKeyExists`'s walk (src lines 152-162, create-key handler): every
segment, the last included, must be reachable through objects. -/
def checkKeyExistsT : JTree → List String → Bool
  | _, [] => true
  | JTree.leaf _, _ :: _ => false
  | JTree.node o, p :: rest =>
      match objGet o p with
      | none => false
      | some v => checkKeyExistsT v rest

/-- `checkKeyExists(obj, keyPath)` from the create-key handler. -/
def checkKeyExists (obj : Obj) (keyPath : String) : Bool :=
  checkKeyExistsT (JTree.node obj) (splitDot keyPath)

/-- The existence probe of `propagateKeyToAllLanguages` (src lines 844-856):
intermediates must be (truthy) objects; the last segment must not be
`undefined`. -/
def probeExists : Obj → List String → Bool
  | _, [] => true
  | o, p :: parts =>
      match parts with
      | [] => (objGet o p).isSome
      | _ :: _ =>
          match objGet o p with
          | some (JTree.node c) => probeExists c parts
          | _ => false

/-- `incrementVersion`'s three-segment carry logic (src lines 787-798) on a
numeric `(major, minor, patch)` triple.  The manifest stores the version as
the string "major.minor.patch"; the handler parses it, applies this bump and
joins it back. -/
def incrementVersionTriple : Nat × Nat × Nat → Nat × Nat × Nat
  | (major, minor, patch) =>
      let patch := patch + 1
      if patch ≥ 100 then
        let minor := minor + 1
        if minor ≥ 100 then (major + 1, 0, 0)
        else (major, minor, 0)
      else (major, minor, patch)

/-- Strict lexicographic order on version triples. -/
def versionLt : Nat × Nat × Nat → Nat × Nat × Nat → Prop
  | (a, b, c), (d, e, f) => a < d ∨ (a = d ∧ (b < e ∨ (b = e ∧ c < f)))

/-- Validation of a key path against `KEY_PATTERN =
/^[A-Za-z0-9_-]+(\.[A-Za-z0-9_-]+)+$/` (src lines 353, 458). -/
def isSegChar (c : Char) : Bool := c.isAlphanum || c = '_' || c = '-'

/-- One key-path segment: nonempty, characters in `[A-Za-z0-9_-]`. -/
def segOk (s : String) : Bool := !s.data.isEmpty && s.data.all isSegChar

/-- `KEY_PATTERN.test(key)`: at least two segments, all well-formed. -/
def validKey (key : String) : Bool :=
  let parts := splitDot key
  decide (2 ≤ parts.length) && parts.all segOk

/-- A manifest entry (`language-list.json` languages array). -/
structure LangDesc where
  code : String
  name : String
  nativeName : String
  enabled : Bool
  file : String
deriving DecidableEq

/-- The persistent state the routes operate on: the manifest
(`language-list.json`) and the per-language translation files (`docs`, an
association of language code to document; a missing entry is a missing
file).  Timestamps and generated archives are not modelled. -/
structure ServerState where
  languages : List LangDesc
  defaultLanguage : String
  fallbackLanguage : String
  version : Nat × Nat × Nat
  docs : List (String × Obj)

/-- Per-language documents on disk. -/
abbrev Docs := List (String × Obj)

/-- Read the translation file for `code` (`fs.readJson` after `pathExists`). -/
def lookupDoc : Docs → String → Option Obj
  | [], _ => none
  | (c, d) :: rest, code => if c = code then some d else lookupDoc rest code

/-- Write the translation file for `code` (`fs.writeJson`). -/
def setDoc : Docs → String → Obj → Docs
  | [], code, d => [(code, d)]
  | (c, d') :: rest, code, d =>
      if c = code then (code, d) :: rest else (c, d') :: setDoc rest code d

/-- Remove the translation file for `code` (`fs.remove`). -/
def removeDoc (ds : Docs) (code : String) : Docs :=
  ds.filter (fun kv => kv.1 != code)

/-- Outcome of a request, abstracting the HTTP reply: `ok` is a 2xx reply,
`badRequest` 400, `notFound` 404, `conflict` 409, and `protectedLang` the
400 reply carrying the `Cannot delete protected language` error of the
delete-language handler. -/
inductive HResult where
  | ok : HResult
  | badRequest : HResult
  | notFound : HResult
  | conflict : HResult
  | protectedLang : HResult
deriving DecidableEq

/-- Whether the language file for `code` exists and already contains the
key (the conflict scan of the create-key handler, src lines 164-179). -/
def langHasKey (ds : Docs) (code : String) (parts : List String) : Bool :=
  match lookupDoc ds code with
  | some data => checkKeyExistsT (JTree.node data) parts
  | none => false

/-- Whether the language file for `code` exists and defines the new key
(the conflict scan of the rename-key handler, src lines 396-405). -/
def langHasNewKey (ds : Docs) (code : String) (parts : List String) : Bool :=
  match lookupDoc ds code with
  | some data => (getNestedVal (JTree.node data) parts).isSome
  | none => false

/-- The body of `propagateKeyToAllLanguages`'s language loop (src lines
844-868) for one language: given the document read from disk (empty when
the file is missing), the updated document to write back, or `none` when
the source performs no write for this language. -/
def propagateWrite (parts : List String) (justUpdatedCode : Option String)
    (updatedValue : String) (providedMap : Option (List (String × String)))
    (code : String) (data : Obj) : Option Obj :=
  if !probeExists data parts then
    let val : String :=
      match providedMap with
      | some m => ((m.lookup code).getD "")
      | none => if justUpdatedCode = some code then updatedValue else ""
    some (setNestedGo data parts (JTree.leaf val))
  else if (match justUpdatedCode with
           | some j => !(j == "") && code == j
           | none => false) then
    some (setNestedGo data parts (JTree.leaf updatedValue))
  else
    match providedMap with
    | some m =>
        match m.lookup code with
        | some v => some (setNestedGo data parts (JTree.leaf v))
        | none => none
    | none => none

/-- One iteration of `propagateKeyToAllLanguages`'s language loop (src
lines 837-869): read the file (default empty) and write back the updated
document when the source writes the file. -/
def propagateStep (parts : List String) (justUpdatedCode : Option String)
    (updatedValue : String) (providedMap : Option (List (String × String)))
    (ds : Docs) (lang : LangDesc) : Docs :=
  let data := (lookupDoc ds lang.code).getD []
  match propagateWrite parts justUpdatedCode updatedValue providedMap
      lang.code data with
  | some d' => setDoc ds lang.code d'
  | none => ds

/-- `propagateKeyToAllLanguages(key, justUpdatedCode, updatedValue,
providedMap)` (src lines 832-876): walk every manifest language filling or
overwriting the key, then bump the version exactly once. -/
def propagateKeyToAllLanguages (st : ServerState) (parts : List String)
    (justUpdatedCode : Option String) (updatedValue : String)
    (providedMap : Option (List (String × String))) : ServerState :=
  let docs' := st.languages.foldl
    (propagateStep parts justUpdatedCode updatedValue providedMap) st.docs
  { st with docs := docs', version := incrementVersionTriple st.version }

/-- One iteration of the write loop shared by the create-key and update-key
handlers (src lines 185-224 and 278-317): read the language file (default
empty) and set the key to the provided value. -/
def writeKeyStep (parts : List String) (ds : Docs) (cv : String × String) :
    Docs :=
  let data := (lookupDoc ds cv.1).getD []
  setDoc ds cv.1 (setNestedGo data parts (JTree.leaf cv.2))

/-- `POST /languages/create-key` (src lines 132-253): reject an empty key,
reject with 409 if the key exists in any manifest language's file, write the
provided translations, then propagate (which bumps the version) unless no
translation was written. -/
def createKey (st : ServerState) (key : String)
    (translations : List (String × String)) : HResult × ServerState :=
  if key = "" then (.badRequest, st)
  else
    let parts := splitDot key
    if st.languages.any (fun lang => langHasKey st.docs lang.code parts) then
      (.conflict, st)
    else
      let docs1 := translations.foldl (writeKeyStep parts) st.docs
      let st1 := { st with docs := docs1 }
      if translations.isEmpty then (.ok, st1)
      else (.ok, propagateKeyToAllLanguages st1 parts none "" (some translations))

/-- `PUT /languages/update-key` (src lines 256-341): no existence check;
write the provided translations, then bump the version. -/
def updateKey (st : ServerState) (key : String)
    (translations : List (String × String)) : HResult × ServerState :=
  if key = "" then (.badRequest, st)
  else
    let parts := splitDot key
    let docs1 := translations.foldl (writeKeyStep parts) st.docs
    (.ok, { st with docs := docs1, version := incrementVersionTriple st.version })

/-- The body of the rename-key language loop (src lines 418-429) for one
language: if the old key resolves in the document, the updated document to
write back (copy to the new key unless it is defined and overwrite was not
requested, then delete the old key with cascading prune); `none` when the
old key is absent and the source performs no write. -/
def renameWrite (oldParts newParts : List String) (overwrite : Bool)
    (data : Obj) : Option Obj :=
  match getNestedVal (JTree.node data) oldParts with
  | some val =>
      let data1 :=
        if (getNestedVal (JTree.node data) newParts).isNone || overwrite then
          setNestedGo data newParts val
        else data
      some (deleteNestedGo true data1 oldParts).1
  | none => none

/-- One iteration of the rename-key language loop (src lines 411-430). -/
def renameStep (oldParts newParts : List String) (overwrite : Bool)
    (ds : Docs) (lang : LangDesc) : Docs :=
  let data := (lookupDoc ds lang.code).getD []
  match renameWrite oldParts newParts overwrite data with
  | some d' => setDoc ds lang.code d'
  | none => ds

/-- `POST /languages/rename-key` (src lines 344-449): validate both keys,
reject with 409 when the new key exists in some language and overwrite was
not requested, otherwise move the key in every language and bump the
version once. -/
def renameKey (st : ServerState) (oldKey newKey : String)
    (overwrite : Bool) : HResult × ServerState :=
  if oldKey = "" || newKey = "" then (.badRequest, st)
  else if oldKey = newKey then (.badRequest, st)
  else if !(validKey oldKey && validKey newKey) then (.badRequest, st)
  else
    let oldParts := splitDot oldKey
    let newParts := splitDot newKey
    let conflict :=
      st.languages.any (fun lang => langHasNewKey st.docs lang.code newParts)
    if conflict && !overwrite then (.conflict, st)
    else
      let docs' :=
        st.languages.foldl (renameStep oldParts newParts overwrite) st.docs
      (.ok, { st with docs := docs',
                      version := incrementVersionTriple st.version })

/-- One iteration of the delete-key language loop (src lines 491-503):
skip missing files, delete the key (pruning when `cleanEmpty`), and record
the language code when a removal occurred. -/
def deleteKeyStep (parts : List String) (cleanEmpty : Bool)
    (acc : Docs × List String) (lang : LangDesc) : Docs × List String :=
  match lookupDoc acc.1 lang.code with
  | none => acc
  | some data =>
      let r := deleteNestedGo cleanEmpty data parts
      if r.2 then (setDoc acc.1 lang.code r.1, acc.2 ++ [lang.code])
      else acc

/-- `POST /languages/delete-key` (src lines 452-515): validate the key,
delete it from every language where present; when no language contained it,
report success without bumping the version, otherwise bump once. -/
def deleteKey (st : ServerState) (key : String) (cleanEmpty : Bool) :
    HResult × ServerState :=
  if key = "" then (.badRequest, st)
  else if !validKey key then (.badRequest, st)
  else
    let parts := splitDot key
    let r := st.languages.foldl (deleteKeyStep parts cleanEmpty) (st.docs, [])
    if r.2.isEmpty then (.ok, { st with docs := r.1 })
    else (.ok, { st with docs := r.1,
                         version := incrementVersionTriple st.version })

/-- The fixed set of language codes that must never be removable
(src line 616). -/
def protectedLanguages : List String := ["zh-CN", "en-US", "zh-TW"]

/-- `findIndex` over the manifest languages (src line 606). -/
def findLangIdx : List LangDesc → String → Option Nat
  | [], _ => none
  | l :: rest, code =>
      if l.code = code then some 0
      else (findLangIdx rest code).map (fun i => i + 1)

/-- `POST /language/:code/delete` (src lines 600-649): 404 when the code is
not in the manifest, the protected-language 400 when the code is protected,
otherwise remove the manifest entry, bump the version and delete the
language file. -/
def deleteLanguage (st : ServerState) (code : String) :
    HResult × ServerState :=
  match findLangIdx st.languages code with
  | none => (.notFound, st)
  | some idx =>
      if protectedLanguages.contains code then (.protectedLang, st)
      else
        (.ok, { st with languages := st.languages.eraseIdx idx,
                        version := incrementVersionTriple st.version,
                        docs := removeDoc st.docs code })

/-! ### Basic lemmas about object properties -/

theorem objGet_objSet_self (o : Obj) (k : String) (v : JTree) :
    objGet (objSet o k v) k = some v := by
  induction o with
  | nil => simp [objSet, objGet]
  | cons kv rest ih =>
      obtain ⟨k', v'⟩ := kv
      by_cases h : k' = k
      · simp [objSet, h, objGet]
      · simp [objSet, h, objGet, ih]

theorem objGet_objSet_other (o : Obj) (k c : String) (v : JTree)
    (h : c ≠ k) : objGet (objSet o k v) c = objGet o c := by
  have hkc : ¬ k = c := fun he => h he.symm
  induction o with
  | nil => simp [objSet, objGet, hkc]
  | cons kv rest ih =>
      obtain ⟨k', v'⟩ := kv
      by_cases hk : k' = k
      · subst hk
        simp [objSet, objGet, hkc]
      · simp only [objSet, if_neg hk]
        by_cases hc : k' = c <;> simp [objGet, hc, ih]

theorem objGet_objDel_self (o : Obj) (k : String) :
    objGet (objDel o k) k = none := by
  induction o with
  | nil => rfl
  | cons kv rest ih =>
      obtain ⟨k', v'⟩ := kv
      by_cases h : k' = k
      · simp [objDel, h, ih]
      · simp [objDel, objGet, h, ih]

theorem objGet_objDel_other (o : Obj) (k c : String) (h : c ≠ k) :
    objGet (objDel o k) c = objGet o c := by
  induction o with
  | nil => rfl
  | cons kv rest ih =>
      obtain ⟨k', v'⟩ := kv
      by_cases hk : k' = k
      · subst hk
        have hkc : ¬ k' = c := fun he => h he.symm
        simp [objDel, objGet, hkc, ih]
      · by_cases hc : k' = c <;> simp [objDel, objGet, hk, hc, h, ih]

/-! ### Lemmas about the nested-key codec -/

theorem getNestedVal_leaf_cons (s : String) (p : String) (rest : List String) :
    getNestedVal (JTree.leaf s) (p :: rest) = none := rfl

theorem getNestedVal_nilobj (p : String) (rest : List String) :
    getNestedVal (JTree.node []) (p :: rest) = none := rfl

/-- The create-key existence scan agrees with `getNestedValue` being
defined. -/
theorem checkKeyExistsT_eq_isSome :
    ∀ (parts : List String) (t : JTree),
      checkKeyExistsT t parts = (getNestedVal t parts).isSome := by
  intro parts
  induction parts with
  | nil => intro t; cases t <;> simp [checkKeyExistsT, getNestedVal]
  | cons p rest ih =>
      intro t
      cases t with
      | leaf s => simp [checkKeyExistsT, getNestedVal]
      | node o =>
          simp only [checkKeyExistsT, getNestedVal]
          cases objGet o p with
          | none => simp
          | some v => simpa using ih v

/-- The propagation probe agrees with `getNestedValue` being defined. -/
theorem probeExists_eq_isSome :
    ∀ (parts : List String) (o : Obj),
      probeExists o parts = (getNestedVal (JTree.node o) parts).isSome := by
  intro parts
  induction parts with
  | nil => intro o; simp [probeExists, getNestedVal]
  | cons p rest ih =>
      intro o
      cases rest with
      | nil =>
          simp only [probeExists, getNestedVal]
          cases objGet o p <;> simp [getNestedVal]
      | cons q rest' =>
          simp only [probeExists, getNestedVal]
          cases objGet o p with
          | none => simp
          | some v =>
              cases v with
              | leaf s => simp [getNestedVal]
              | node c => simpa [getNestedVal] using ih c

/-- Reading a key right after setting it yields the written value. -/
theorem getNestedVal_setNestedGo :
    ∀ (parts : List String) (o : Obj) (v : JTree), parts ≠ [] →
      getNestedVal (JTree.node (setNestedGo o parts v)) parts = some v := by
  intro parts
  induction parts with
  | nil => intro o v h; exact absurd rfl h
  | cons p rest ih =>
      intro o v _
      cases rest with
      | nil => simp [setNestedGo, getNestedVal, objGet_objSet_self]
      | cons q rest' =>
          simp only [setNestedGo, getNestedVal, objGet_objSet_self]
          exact ih _ v (by simp)

/-! ### Facts about key validation -/

theorem validKey_length (key : String) (h : validKey key = true) :
    2 ≤ (splitDot key).length := by
  unfold validKey at h
  simp only [Bool.and_eq_true, decide_eq_true_eq] at h
  exact h.1

theorem validKey_parts_ne_nil (key : String) (h : validKey key = true) :
    splitDot key ≠ [] := by
  have := validKey_length key h
  intro hnil
  rw [hnil] at this
  simp at this

theorem validKey_ne_empty (key : String) (h : validKey key = true) :
    key ≠ "" := by
  intro hk
  subst hk
  exact absurd h (by decide)

/-- Unfolding equation for `deleteNestedGo` on a path of length at least
two, keeping the recursive call folded. -/
theorem deleteNestedGo_pair (ce : Bool) (o : Obj) (p q : String)
    (rest : List String) :
    deleteNestedGo ce o (p :: q :: rest) =
      (match objGet o p with
       | some (JTree.node c) =>
           if (deleteNestedGo ce c (q :: rest)).2 then
             (if ce && (deleteNestedGo ce c (q :: rest)).1.isEmpty
               then objDel o p
               else objSet o p (JTree.node (deleteNestedGo ce c (q :: rest)).1),
              true)
           else (o, false)
       | _ => (o, false)) := rfl

/-- A removal is reported exactly when the existence scan finds the key. -/
theorem deleteNestedGo_snd_eq_check :
    ∀ (parts : List String) (o : Obj) (ce : Bool), parts ≠ [] →
      (deleteNestedGo ce o parts).2 = checkKeyExistsT (JTree.node o) parts := by
  intro parts
  induction parts with
  | nil => intro o ce h; exact absurd rfl h
  | cons p rest ih =>
      intro o ce _
      cases rest with
      | nil =>
          simp only [deleteNestedGo, checkKeyExistsT]
          cases objGet o p <;> simp [checkKeyExistsT]
      | cons q rest' =>
          rw [deleteNestedGo_pair]
          simp only [checkKeyExistsT]
          cases hgo : objGet o p with
          | none => simp
          | some t =>
              cases t with
              | leaf s => simp [checkKeyExistsT]
              | node c =>
                  dsimp only
                  rw [← ih c ce (by simp)]
                  by_cases hr : (deleteNestedGo ce c (q :: rest')).2 <;>
                    simp [hr]

/-- Deleting a defined key with pruning: the removal is reported, the key
is undefined afterwards, and no proper prefix of the path holds an empty
object. -/
theorem deleteNestedGo_of_defined :
    ∀ (parts : List String) (o : Obj), parts ≠ [] →
      (getNestedVal (JTree.node o) parts).isSome = true →
      (deleteNestedGo true o parts).2 = true ∧
      getNestedVal (JTree.node (deleteNestedGo true o parts).1) parts = none ∧
      ∀ i, 0 < i → i < parts.length →
        getNestedVal (JTree.node (deleteNestedGo true o parts).1)
          (parts.take i) ≠ some (JTree.node []) := by
  intro parts
  induction parts with
  | nil => intro o h; exact absurd rfl h
  | cons p rest ih =>
      intro o _ hdef
      cases rest with
      | nil =>
          have hg : (objGet o p).isSome = true := by
            simp only [getNestedVal] at hdef
            cases hgo : objGet o p
            · rw [hgo] at hdef; simp at hdef
            · simp [hgo]
          refine ⟨by simp [deleteNestedGo, hg], ?_, ?_⟩
          · simp [deleteNestedGo, hg, getNestedVal, objGet_objDel_self]
          · intro i h1 h2
            simp at h2
            omega
      | cons q rest' =>
          simp only [getNestedVal] at hdef
          cases hgo : objGet o p with
          | none => rw [hgo] at hdef; simp at hdef
          | some t =>
              rw [hgo] at hdef
              cases t with
              | leaf s => simp [getNestedVal] at hdef
              | node c =>
                  obtain ⟨h1, h2, h3⟩ := ih c (by simp) hdef
                  have hres : deleteNestedGo true o (p :: q :: rest') =
                      (if (deleteNestedGo true c (q :: rest')).1.isEmpty
                        then objDel o p
                        else objSet o p
                          (JTree.node (deleteNestedGo true c (q :: rest')).1),
                       true) := by
                    rw [deleteNestedGo_pair, hgo]
                    dsimp only
                    rw [h1]
                    rw [Bool.true_and]
                    simp
                  by_cases hemp : (deleteNestedGo true c (q :: rest')).1.isEmpty
                  · have hnil : (deleteNestedGo true c (q :: rest')).1 = [] :=
                      List.isEmpty_iff.mp hemp
                    rw [hres, if_pos hemp]
                    refine ⟨rfl, ?_, ?_⟩
                    · simp [getNestedVal, objGet_objDel_self]
                    · intro i hi _
                      obtain ⟨j, rfl⟩ := Nat.exists_eq_add_of_lt hi
                      simp only [Nat.zero_add, List.take_succ_cons]
                      simp [getNestedVal, objGet_objDel_self]
                  · have hne : (deleteNestedGo true c (q :: rest')).1 ≠ [] := by
                      intro hn
                      rw [hn] at hemp
                      simp at hemp
                    rw [hres, if_neg hemp]
                    refine ⟨rfl, ?_, ?_⟩
                    · simp only [getNestedVal, objGet_objSet_self]
                      exact h2
                    · intro i hi hlen
                      obtain ⟨j, rfl⟩ := Nat.exists_eq_add_of_lt hi
                      simp only [Nat.zero_add, List.take_succ_cons]
                      cases j with
                      | zero =>
                          simp only [List.take_zero, getNestedVal,
                            objGet_objSet_self]
                          intro heq
                          rw [Option.some_inj] at heq
                          exact hne (by injection heq)
                      | succ j' =>
                          simp only [getNestedVal, objGet_objSet_self]
                          refine h3 (j' + 1) (by omega) ?_
                          simp only [List.length_cons] at hlen ⊢
                          omega

/-- Two key paths diverge when they differ at some position inside their
common length, i.e. neither is a prefix of the other. -/
def diverges : List String → List String → Bool
  | a :: p, b :: q => if a = b then diverges p q else true
  | _, _ => false

theorem diverges_symm : ∀ (p q : List String), diverges p q = diverges q p := by
  intro p
  induction p with
  | nil => intro q; cases q <;> rfl
  | cons a p' ih =>
      intro q
      cases q with
      | nil => rfl
      | cons b q' =>
          by_cases h : a = b
          · subst h
            simp [diverges, ih q']
          · have h' : ¬ b = a := fun he => h he.symm
            simp [diverges, h, h']

theorem diverges_ne_nil_left {p q : List String} (h : diverges p q = true) :
    p ≠ [] := by
  cases p
  · cases q <;> simp [diverges] at h
  · simp

theorem diverges_ne_nil_right {p q : List String} (h : diverges p q = true) :
    q ≠ [] := by
  cases q
  · cases p <;> simp [diverges] at h
  · simp

/-- Unfolding equation for `setNestedGo` on a path of length at least two,
keeping the recursive call folded. -/
theorem setNestedGo_pair (o : Obj) (p q : String) (rest : List String)
    (v : JTree) :
    setNestedGo o (p :: q :: rest) v =
      objSet o p (JTree.node (setNestedGo
        (match objGet o p with
         | some (JTree.node c) => c
         | _ => []) (q :: rest) v)) := rfl

/-- Unfolding equation for `getNestedVal` on an object and a nonempty
path, keeping the recursive call folded. -/
theorem getNestedVal_node_cons (o : Obj) (p : String) (rest : List String) :
    getNestedVal (JTree.node o) (p :: rest) =
      (match objGet o p with
       | none => none
       | some v => getNestedVal v rest) := rfl

/-- Setting along one path does not disturb reads along a diverging path. -/
theorem getNestedVal_setNestedGo_other :
    ∀ (p1 p2 : List String) (o : Obj) (v : JTree), diverges p1 p2 = true →
      getNestedVal (JTree.node (setNestedGo o p1 v)) p2
        = getNestedVal (JTree.node o) p2 := by
  intro p1
  induction p1 with
  | nil => intro p2 o v h; exact absurd h (by cases p2 <;> simp [diverges])
  | cons a p1' ih =>
      intro p2 o v h
      cases p2 with
      | nil => exact absurd h (by simp [diverges])
      | cons b p2' =>
          by_cases hab : a = b
          · subst hab
            have h' : diverges p1' p2' = true := by
              simpa [diverges] using h
            have hp1' : p1' ≠ [] := diverges_ne_nil_left h'
            have hp2' : p2' ≠ [] := diverges_ne_nil_right h'
            obtain ⟨q1, p1'', rfl⟩ := List.exists_cons_of_ne_nil hp1'
            obtain ⟨q2, p2'', rfl⟩ := List.exists_cons_of_ne_nil hp2'
            rw [setNestedGo_pair, getNestedVal_node_cons, objGet_objSet_self]
            dsimp only
            rw [ih _ _ _ h']
            cases hgo : objGet o a with
            | none => simp [getNestedVal_node_cons, hgo, objGet, getNestedVal]
            | some t =>
                cases t with
                | leaf s =>
                    simp [getNestedVal_node_cons, hgo, objGet, getNestedVal]
                | node c =>
                    simp [getNestedVal_node_cons, hgo]
          · have hba : b ≠ a := fun he => hab he.symm
            cases p1' with
            | nil =>
                show getNestedVal (JTree.node (objSet o a v)) (b :: p2') = _
                rw [getNestedVal_node_cons, objGet_objSet_other o a b v hba,
                  getNestedVal_node_cons]
            | cons q1 p1'' =>
                rw [setNestedGo_pair, getNestedVal_node_cons,
                  objGet_objSet_other o a b _ hba, getNestedVal_node_cons]

/-- Deleting along one path (with pruning) does not disturb reads along a
diverging path. -/
theorem getNestedVal_deleteNestedGo_other :
    ∀ (p1 p2 : List String) (o : Obj), diverges p1 p2 = true →
      getNestedVal (JTree.node (deleteNestedGo true o p1).1) p2
        = getNestedVal (JTree.node o) p2 := by
  intro p1
  induction p1 with
  | nil => intro p2 o h; exact absurd h (by cases p2 <;> simp [diverges])
  | cons a p1' ih =>
      intro p2 o h
      cases p2 with
      | nil => exact absurd h (by simp [diverges])
      | cons b p2' =>
          by_cases hab : a = b
          · subst hab
            simp only [diverges, if_pos rfl] at h
            have hp1' : p1' ≠ [] := diverges_ne_nil_left h
            have hp2' : p2' ≠ [] := diverges_ne_nil_right h
            obtain ⟨q1, p1'', rfl⟩ := List.exists_cons_of_ne_nil hp1'
            obtain ⟨q2, p2'', rfl⟩ := List.exists_cons_of_ne_nil hp2'
            rw [deleteNestedGo_pair]
            cases hgo : objGet o a with
            | none => dsimp only
            | some t =>
                cases t with
                | leaf s => dsimp only
                | node c =>
                    dsimp only
                    by_cases hr : (deleteNestedGo true c (q1 :: p1'')).2
                    · rw [if_pos hr, Bool.true_and]
                      by_cases hemp :
                          (deleteNestedGo true c (q1 :: p1'')).1.isEmpty
                      · have hnil :
                            (deleteNestedGo true c (q1 :: p1'')).1 = [] :=
                          List.isEmpty_iff.mp hemp
                        rw [if_pos hemp]
                        have lhs0 : getNestedVal
                            (JTree.node (objDel o a)) (a :: q2 :: p2'')
                            = none := by
                          simp [getNestedVal, objGet_objDel_self]
                        rw [lhs0]
                        have := ih (q2 :: p2'') c h
                        rw [hnil] at this
                        simp only [getNestedVal, objGet] at this
                        simp only [getNestedVal, hgo]
                        rw [← this]
                      · rw [if_neg hemp]
                        simp only [getNestedVal, objGet_objSet_self, hgo]
                        exact ih (q2 :: p2'') c h
                    · rw [if_neg hr]
          · have hba : b ≠ a := fun he => hab he.symm
            cases p1' with
            | nil =>
                simp only [deleteNestedGo]
                by_cases hg : (objGet o a).isSome
                · rw [if_pos hg]
                  simp only [getNestedVal, objGet_objDel_other o a b hba]
                · rw [if_neg hg]
            | cons q1 p1'' =>
                rw [deleteNestedGo_pair]
                cases hgo : objGet o a with
                | none => dsimp only
                | some t =>
                    cases t with
                    | leaf s => dsimp only
                    | node c =>
                        dsimp only
                        by_cases hr : (deleteNestedGo true c (q1 :: p1'')).2
                        · rw [if_pos hr, Bool.true_and]
                          by_cases hemp :
                              (deleteNestedGo true c (q1 :: p1'')).1.isEmpty
                          · rw [if_pos hemp]
                            simp only [getNestedVal,
                              objGet_objDel_other o a b hba]
                          · rw [if_neg hemp]
                            simp only [getNestedVal,
                              objGet_objSet_other o a b _ hba]
                        · rw [if_neg hr]

/-- The object chain freshly built by `setNestedKey` below a destroyed
leaf: a nest of singleton objects ending in the written value. -/
def chainObj : List String → JTree → Obj
  | [], _ => []
  | p :: parts, v =>
      match parts with
      | [] => [(p, v)]
      | _ :: _ => [(p, JTree.node (chainObj parts v))]

/-- `setNestedKey` starting from an empty object builds exactly the chain. -/
theorem setNestedGo_nil_eq_chain :
    ∀ (parts : List String) (v : JTree), parts ≠ [] →
      setNestedGo [] parts v = chainObj parts v := by
  intro parts
  induction parts with
  | nil => intro v h; exact absurd rfl h
  | cons p rest ih =>
      intro v _
      cases rest with
      | nil => rfl
      | cons q rest' =>
          rw [setNestedGo_pair]
          show objSet [] p (JTree.node (setNestedGo [] (q :: rest') v)) = _
          rw [ih v (by simp)]
          rfl

/-- When a proper prefix of the path holds a string leaf, setting the key
replaces that leaf by a fresh chain of singleton objects carrying only the
new path and value. -/
theorem setNestedGo_leaf_prefix :
    ∀ (parts : List String) (o : Obj) (v : JTree) (i : Nat) (s : String),
      0 < i → i < parts.length →
      getNestedVal (JTree.node o) (parts.take i) = some (JTree.leaf s) →
      getNestedVal (JTree.node (setNestedGo o parts v)) (parts.take i)
        = some (JTree.node (chainObj (parts.drop i) v)) := by
  intro parts
  induction parts with
  | nil =>
      intro o v i s h1 h2 _
      simp at h2
  | cons p rest ih =>
      intro o v i s h1 h2 hleaf
      obtain ⟨j, rfl⟩ := Nat.exists_eq_add_of_lt h1
      simp only [Nat.zero_add] at h2 hleaf ⊢
      simp only [List.take_succ_cons] at hleaf ⊢
      cases j with
      | zero =>
          rw [List.take_zero] at hleaf
          have hgo : objGet o p = some (JTree.leaf s) := by
            rw [getNestedVal_node_cons] at hleaf
            cases hg : objGet o p with
            | none => rw [hg] at hleaf; simp at hleaf
            | some t =>
                rw [hg] at hleaf
                simp only [getNestedVal] at hleaf
                rw [Option.some_inj] at hleaf
                exact congrArg some hleaf
          have hlen : 0 < rest.length := by
            simp only [List.length_cons] at h2
            omega
          have hrest : rest ≠ [] := by
            intro hn
            rw [hn] at hlen
            simp at hlen
          obtain ⟨q, rest', rfl⟩ := List.exists_cons_of_ne_nil hrest
          rw [setNestedGo_pair, hgo]
          dsimp only
          rw [setNestedGo_nil_eq_chain _ _ (by simp)]
          rw [List.take_zero, getNestedVal_node_cons, objGet_objSet_self]
          simp [getNestedVal]
      | succ j' =>
          have hlen : j' + 1 < rest.length := by
            simp only [List.length_cons] at h2
            omega
          have hrest : rest ≠ [] := by
            intro hn
            rw [hn] at hlen
            simp at hlen
          obtain ⟨q, rest', rfl⟩ := List.exists_cons_of_ne_nil hrest
          rw [getNestedVal_node_cons] at hleaf
          cases hg : objGet o p with
          | none => rw [hg] at hleaf; simp at hleaf
          | some t =>
              rw [hg] at hleaf
              cases t with
              | leaf s' =>
                  rw [List.take_succ_cons] at hleaf
                  simp [getNestedVal] at hleaf
              | node c =>
                  rw [setNestedGo_pair, hg]
                  dsimp only
                  rw [getNestedVal_node_cons, objGet_objSet_self]
                  dsimp only
                  rw [ih c v (j' + 1) s (by omega) hlen hleaf]
                  simp

/-! ### Lemmas about the on-disk document store -/

theorem lookupDoc_setDoc_self (ds : Docs) (code : String) (d : Obj) :
    lookupDoc (setDoc ds code d) code = some d := by
  induction ds with
  | nil => simp [setDoc, lookupDoc]
  | cons kv rest ih =>
      obtain ⟨c, d'⟩ := kv
      by_cases h : c = code
      · simp [setDoc, h, lookupDoc]
      · simp [setDoc, h, lookupDoc, ih]

theorem lookupDoc_setDoc_other (ds : Docs) (code c : String) (d : Obj)
    (h : c ≠ code) : lookupDoc (setDoc ds code d) c = lookupDoc ds c := by
  have hcc : ¬ code = c := fun he => h he.symm
  induction ds with
  | nil => simp [setDoc, lookupDoc, hcc]
  | cons kv rest ih =>
      obtain ⟨c', d'⟩ := kv
      by_cases hk : c' = code
      · subst hk
        simp [setDoc, lookupDoc, hcc]
      · simp only [setDoc, if_neg hk]
        by_cases hc : c' = c <;> simp [lookupDoc, hc, ih]

/-- A fold over languages whose step only touches the language's own file
leaves other codes untouched. -/
theorem foldl_lookup_notin (step : Docs → LangDesc → Docs)
    (hother : ∀ ds l c, c ≠ l.code →
      lookupDoc (step ds l) c = lookupDoc ds c) :
    ∀ (langs : List LangDesc) (ds : Docs) (c : String),
      (∀ l ∈ langs, l.code ≠ c) →
      lookupDoc (langs.foldl step ds) c = lookupDoc ds c := by
  intro langs
  induction langs with
  | nil => intro ds c _; rfl
  | cons hd tl ih =>
      intro ds c hc
      simp only [List.foldl_cons]
      rw [ih (step ds hd) c (fun l hl => hc l (List.mem_cons_of_mem _ hl)),
        hother ds hd c (fun he => hc hd (List.mem_cons_self _ _) he.symm)]

/-- In a fold over manifest languages with pairwise distinct codes, the
final content of a language's file is its own step applied to its original
content. -/
theorem foldl_lookup_own (step : Docs → LangDesc → Docs)
    (res : LangDesc → Option Obj → Option Obj)
    (hother : ∀ ds l c, c ≠ l.code →
      lookupDoc (step ds l) c = lookupDoc ds c)
    (hown : ∀ ds l, lookupDoc (step ds l) l.code = res l (lookupDoc ds l.code)) :
    ∀ (langs : List LangDesc) (ds : Docs) (l : LangDesc),
      (langs.map LangDesc.code).Nodup → l ∈ langs →
      lookupDoc (langs.foldl step ds) l.code = res l (lookupDoc ds l.code) := by
  intro langs
  induction langs with
  | nil => intro ds l _ h; cases h
  | cons hd tl ih =>
      intro ds l hnd hmem
      simp only [List.map_cons, List.nodup_cons] at hnd
      obtain ⟨hnotin, hnd'⟩ := hnd
      rcases List.mem_cons.mp hmem with rfl | hmem'
      · simp only [List.foldl_cons]
        rw [foldl_lookup_notin step hother tl (step ds l) l.code ?_, hown]
        intro l' hl' he
        exact hnotin (he ▸ List.mem_map_of_mem LangDesc.code hl')
      · simp only [List.foldl_cons]
        rw [ih (step ds hd) l hnd' hmem', hother]
        intro he
        exact hnotin (he ▸ List.mem_map_of_mem LangDesc.code hmem')

/-- `propagateStep` leaves other languages' files untouched. -/
theorem propagateStep_other (parts : List String) (juc : Option String)
    (uv : String) (pm : Option (List (String × String))) (ds : Docs)
    (l : LangDesc) (c : String) (hc : c ≠ l.code) :
    lookupDoc (propagateStep parts juc uv pm ds l) c = lookupDoc ds c := by
  unfold propagateStep
  dsimp only
  cases propagateWrite parts juc uv pm l.code ((lookupDoc ds l.code).getD [])
  · rfl
  · exact lookupDoc_setDoc_other _ _ _ _ hc

/-- The effect of one propagation step on the language's own file, as a
function of its previous content. -/
def propagateRes (parts : List String) (juc : Option String) (uv : String)
    (pm : Option (List (String × String))) (l : LangDesc)
    (od : Option Obj) : Option Obj :=
  match propagateWrite parts juc uv pm l.code (od.getD []) with
  | some d' => some d'
  | none => od

/-- `propagateStep` updates the language's own file according to
`propagateWrite`. -/
theorem propagateStep_own (parts : List String) (juc : Option String)
    (uv : String) (pm : Option (List (String × String))) (ds : Docs)
    (l : LangDesc) :
    lookupDoc (propagateStep parts juc uv pm ds l) l.code =
      propagateRes parts juc uv pm l (lookupDoc ds l.code) := by
  unfold propagateRes
  unfold propagateStep
  dsimp only
  cases propagateWrite parts juc uv pm l.code ((lookupDoc ds l.code).getD [])
  · rfl
  · exact lookupDoc_setDoc_self _ _ _

/-- `renameStep` leaves other languages' files untouched. -/
theorem renameStep_other (oldParts newParts : List String) (ow : Bool)
    (ds : Docs) (l : LangDesc) (c : String) (hc : c ≠ l.code) :
    lookupDoc (renameStep oldParts newParts ow ds l) c = lookupDoc ds c := by
  unfold renameStep
  dsimp only
  cases renameWrite oldParts newParts ow ((lookupDoc ds l.code).getD [])
  · rfl
  · exact lookupDoc_setDoc_other _ _ _ _ hc

/-- The effect of one rename step on the language's own file, as a
function of its previous content. -/
def renameRes (oldParts newParts : List String) (ow : Bool) (l : LangDesc)
    (od : Option Obj) : Option Obj :=
  match renameWrite oldParts newParts ow (od.getD []) with
  | some d' => some d'
  | none => od

/-- `renameStep` updates the language's own file according to
`renameWrite`. -/
theorem renameStep_own (oldParts newParts : List String) (ow : Bool)
    (ds : Docs) (l : LangDesc) :
    lookupDoc (renameStep oldParts newParts ow ds l) l.code =
      renameRes oldParts newParts ow l (lookupDoc ds l.code) := by
  unfold renameRes
  unfold renameStep
  dsimp only
  cases renameWrite oldParts newParts ow ((lookupDoc ds l.code).getD [])
  · rfl
  · exact lookupDoc_setDoc_self _ _ _

/-- Unfolding equation for `deleteKeyStep`. -/
theorem deleteKeyStep_eq (parts : List String) (ce : Bool)
    (acc : Docs × List String) (lang : LangDesc) :
    deleteKeyStep parts ce acc lang =
      (match lookupDoc acc.1 lang.code with
       | none => acc
       | some data =>
           if (deleteNestedGo ce data parts).2 then
             (setDoc acc.1 lang.code (deleteNestedGo ce data parts).1,
              acc.2 ++ [lang.code])
           else acc) := rfl

/-- The document part of the delete-key loop, in isolation. -/
def deleteDocsStep (parts : List String) (ce : Bool) (ds : Docs)
    (lang : LangDesc) : Docs :=
  match lookupDoc ds lang.code with
  | none => ds
  | some data =>
      if (deleteNestedGo ce data parts).2 then
        setDoc ds lang.code (deleteNestedGo ce data parts).1
      else ds

theorem deleteKeyStep_fst (parts : List String) (ce : Bool)
    (acc : Docs × List String) (lang : LangDesc) :
    (deleteKeyStep parts ce acc lang).1 = deleteDocsStep parts ce acc.1 lang := by
  rw [deleteKeyStep_eq]
  unfold deleteDocsStep
  cases lookupDoc acc.1 lang.code
  · rfl
  · dsimp only
    split <;> rfl

theorem deleteKey_fold_fst (parts : List String) (ce : Bool) :
    ∀ (langs : List LangDesc) (ds : Docs) (dl : List String),
      (langs.foldl (deleteKeyStep parts ce) (ds, dl)).1 =
        langs.foldl (deleteDocsStep parts ce) ds := by
  intro langs
  induction langs with
  | nil => intro ds dl; rfl
  | cons hd tl ih =>
      intro ds dl
      simp only [List.foldl_cons]
      calc (List.foldl (deleteKeyStep parts ce)
              (deleteKeyStep parts ce (ds, dl) hd) tl).1
          = List.foldl (deleteDocsStep parts ce)
              (deleteKeyStep parts ce (ds, dl) hd).1 tl := ih _ _
        _ = List.foldl (deleteDocsStep parts ce)
              (deleteDocsStep parts ce ds hd) tl := by
            rw [deleteKeyStep_fst]

theorem deleteDocsStep_other (parts : List String) (ce : Bool) (ds : Docs)
    (l : LangDesc) (c : String) (hc : c ≠ l.code) :
    lookupDoc (deleteDocsStep parts ce ds l) c = lookupDoc ds c := by
  unfold deleteDocsStep
  cases lookupDoc ds l.code
  · rfl
  · dsimp only
    split
    · exact lookupDoc_setDoc_other _ _ _ _ hc
    · rfl

/-- The effect of one delete-key step on the language's own file, as a
function of its previous content. -/
def deleteDocsRes (parts : List String) (ce : Bool) (l : LangDesc)
    (od : Option Obj) : Option Obj :=
  match od with
  | none => none
  | some data =>
      if (deleteNestedGo ce data parts).2 then
        some (deleteNestedGo ce data parts).1
      else some data

theorem deleteDocsStep_own (parts : List String) (ce : Bool) (ds : Docs)
    (l : LangDesc) :
    lookupDoc (deleteDocsStep parts ce ds l) l.code =
      deleteDocsRes parts ce l (lookupDoc ds l.code) := by
  unfold deleteDocsRes
  unfold deleteDocsStep
  cases hl : lookupDoc ds l.code
  · rw [hl]
  · dsimp only
    split
    · exact lookupDoc_setDoc_self _ _ _
    · exact hl

/-- When no removal is reported, the object is returned unchanged. -/
theorem deleteNestedGo_fst_of_not_removed :
    ∀ (parts : List String) (o : Obj) (ce : Bool),
      (deleteNestedGo ce o parts).2 = false →
      (deleteNestedGo ce o parts).1 = o := by
  intro parts o ce h
  cases parts with
  | nil => rfl
  | cons p rest =>
      cases rest with
      | nil =>
          by_cases hg : (objGet o p).isSome
          · simp [deleteNestedGo, hg] at h
          · simp [deleteNestedGo, hg]
      | cons q rest' =>
          rw [deleteNestedGo_pair] at h ⊢
          cases hgo : objGet o p with
          | none => rfl
          | some t =>
              cases t with
              | leaf s => rfl
              | node c =>
                  rw [hgo] at h
                  dsimp only at h ⊢
                  by_cases hr : (deleteNestedGo ce c (q :: rest')).2
                  · rw [if_pos hr] at h
                    simp at h
                  · rw [if_neg hr]

/-- The delete-key loop leaves everything unchanged when no language file
contains the key. -/
theorem deleteKey_fold_noop (parts : List String) (ce : Bool) :
    ∀ (langs : List LangDesc) (ds : Docs) (dl : List String),
      (∀ l ∈ langs, ∀ d, lookupDoc ds l.code = some d →
        (deleteNestedGo ce d parts).2 = false) →
      langs.foldl (deleteKeyStep parts ce) (ds, dl) = (ds, dl) := by
  intro langs
  induction langs with
  | nil => intro ds dl _; rfl
  | cons hd tl ih =>
      intro ds dl hno
      simp only [List.foldl_cons]
      have hstep : deleteKeyStep parts ce (ds, dl) hd = (ds, dl) := by
        rw [deleteKeyStep_eq]
        cases hl : lookupDoc ds hd.code
        · rfl
        · dsimp only
          rw [if_neg]
          rw [hno hd (List.mem_cons_self _ _) _ hl]
          simp
      rw [hstep]
      exact ih ds dl (fun l hl => hno l (List.mem_cons_of_mem _ hl))

/-- The recorded deletions list only grows along the fold. -/
theorem deleteKey_fold_deleted_extends (parts : List String) (ce : Bool) :
    ∀ (langs : List LangDesc) (ds : Docs) (dl : List String),
      ∃ extra, (langs.foldl (deleteKeyStep parts ce) (ds, dl)).2 = dl ++ extra := by
  intro langs
  induction langs with
  | nil => intro ds dl; exact ⟨[], by simp⟩
  | cons hd tl ih =>
      intro ds dl
      simp only [List.foldl_cons]
      rw [deleteKeyStep_eq]
      cases hl : lookupDoc ds hd.code
      · exact ih ds dl
      · dsimp only
        split
        · obtain ⟨extra, he⟩ := ih _ (dl ++ [hd.code])
          exact ⟨[hd.code] ++ extra, by rw [he, List.append_assoc]⟩
        · exact ih ds dl

/-- If some manifest language's file contains the key, the delete-key loop
records at least one deletion. -/
theorem deleteKey_fold_deleted_ne (parts : List String) (ce : Bool) :
    ∀ (langs : List LangDesc) (ds : Docs) (dl : List String),
      (langs.map LangDesc.code).Nodup →
      (∃ l ∈ langs, ∃ d, lookupDoc ds l.code = some d ∧
        (deleteNestedGo ce d parts).2 = true) →
      (langs.foldl (deleteKeyStep parts ce) (ds, dl)).2 ≠ [] := by
  intro langs
  induction langs with
  | nil => intro ds dl _ hw; simp at hw
  | cons hd tl ih =>
      intro ds dl hnd hw
      simp only [List.map_cons, List.nodup_cons] at hnd
      obtain ⟨hnotin, hnd'⟩ := hnd
      simp only [List.foldl_cons]
      obtain ⟨l, hlmem, d, hld, hrem⟩ := hw
      rcases List.mem_cons.mp hlmem with rfl | hmem'
      · have hstep : deleteKeyStep parts ce (ds, dl) l =
            (setDoc ds l.code (deleteNestedGo ce d parts).1,
             dl ++ [l.code]) := by
          rw [deleteKeyStep_eq, hld]
          dsimp only
          rw [if_pos hrem]
        rw [hstep]
        obtain ⟨extra, he⟩ := deleteKey_fold_deleted_extends parts ce tl _
          (dl ++ [l.code])
        rw [he]
        simp
      · have hcode : l.code ≠ hd.code := by
          intro he
          exact hnotin (he ▸ List.mem_map_of_mem LangDesc.code hmem')
        have hpres : lookupDoc (deleteKeyStep parts ce (ds, dl) hd).1 l.code
            = some d := by
          rw [deleteKeyStep_fst, deleteDocsStep_other _ _ _ _ _ hcode]
          exact hld
        have := ih (deleteKeyStep parts ce (ds, dl) hd).1
          (deleteKeyStep parts ce (ds, dl) hd).2 hnd'
          ⟨l, hmem', d, hpres, hrem⟩
        exact this

/-! ### Claim theorems -/

/-- C2: the version bump increments patch by 1; at 100 the patch resets
and carries into minor, and likewise minor into major, with no upper bound
on major; `(0,0,99)` bumps to `(0,1,0)`, `(0,99,99)` bumps to `(1,0,0)`,
and the result is strictly greater in lexicographic order. -/
theorem c2_version_bump (major minor patch : Nat) :
    incrementVersionTriple (major, minor, patch) =
      (if patch + 1 ≥ 100 then
        (if minor + 1 ≥ 100 then (major + 1, 0, 0) else (major, minor + 1, 0))
       else (major, minor, patch + 1)) ∧
    incrementVersionTriple (0, 0, 99) = (0, 1, 0) ∧
    incrementVersionTriple (0, 99, 99) = (1, 0, 0) ∧
    incrementVersionTriple (major, 99, 99) = (major + 1, 0, 0) ∧
    versionLt (major, minor, patch)
      (incrementVersionTriple (major, minor, patch)) := by
  refine ⟨rfl, by decide, by decide, by simp [incrementVersionTriple], ?_⟩
  unfold incrementVersionTriple
  by_cases hp : patch + 1 ≥ 100
  · by_cases hm : minor + 1 ≥ 100
    · simp only [if_pos hp, if_pos hm, versionLt]
      omega
    · simp only [if_pos hp, if_neg hm, versionLt, true_and]
      omega
  · simp only [if_neg hp, versionLt, true_and]
    omega

/-- C3: for every document, valid dot-separated key path, and value,
reading the key with the nested get right after setting it with the nested
set yields exactly the written value. -/
theorem c3_get_after_set (D : Obj) (key : String) (v : JTree)
    (h : validKey key = true) :
    getNestedValue (setNestedKey D key v) key = some v :=
  getNestedVal_setNestedGo (splitDot key) D v (validKey_parts_ne_nil key h)

/-- Witness for C3 at a concrete input. -/
theorem c3_get_after_set_witness :
    validKey "menu.title" = true ∧
    getNestedValue (setNestedKey [] "menu.title" (JTree.leaf "Hello"))
      "menu.title" = some (JTree.leaf "Hello") :=
  ⟨by decide,
   c3_get_after_set [] "menu.title" (JTree.leaf "Hello") (by decide)⟩

/-- C4: deleting a defined key returns true (a removal occurred), the key
is undefined afterwards, and every intermediate object on the path left
empty by the removal is itself removed (no prefix of the path holds an
empty object afterwards, the walk stopping at the first non-empty
ancestor). -/
theorem c4_delete_defined (D : Obj) (key : String)
    (hk : validKey key = true)
    (hdef : (getNestedValue D key).isSome = true) :
    (deleteNestedKey D key).2 = true ∧
    getNestedValue (deleteNestedKey D key).1 key = none ∧
    ∀ i, 0 < i → i < (splitDot key).length →
      getNestedVal (JTree.node (deleteNestedKey D key).1)
        ((splitDot key).take i) ≠ some (JTree.node []) :=
  deleteNestedGo_of_defined (splitDot key) D (validKey_parts_ne_nil key hk)
    hdef

/-- Witness for C4 at a concrete input. -/
theorem c4_delete_defined_witness :
    validKey "a.b" = true ∧
    (getNestedValue [("a", JTree.node [("b", JTree.leaf "x")]),
        ("c", JTree.leaf "y")] "a.b").isSome = true ∧
    ((deleteNestedKey [("a", JTree.node [("b", JTree.leaf "x")]),
        ("c", JTree.leaf "y")] "a.b").2 = true ∧
      getNestedValue (deleteNestedKey [("a", JTree.node [("b",
        JTree.leaf "x")]), ("c", JTree.leaf "y")] "a.b").1 "a.b" = none ∧
      ∀ i, 0 < i → i < (splitDot "a.b").length →
        getNestedVal (JTree.node (deleteNestedKey [("a", JTree.node [("b",
          JTree.leaf "x")]), ("c", JTree.leaf "y")] "a.b").1)
          ((splitDot "a.b").take i) ≠ some (JTree.node [])) :=
  ⟨by decide, by rfl,
   c4_delete_defined [("a", JTree.node [("b", JTree.leaf "x")]),
     ("c", JTree.leaf "y")] "a.b" (by decide) (by rfl)⟩

/-- C10: the nested set never fails: when a proper prefix of the path
resolves to a string leaf, that leaf is silently replaced by a fresh empty
object so the rest of the path can be created (the subtree at that prefix
becomes exactly the freshly built chain carrying the new value, destroying
the previous leaf), and reading the key afterwards yields the written
value. -/
theorem c10_set_replaces_leaf (D : Obj) (key : String) (v : JTree)
    (hk : validKey key = true) (i : Nat) (s : String) (h1 : 0 < i)
    (h2 : i < (splitDot key).length)
    (hleaf : getNestedVal (JTree.node D) ((splitDot key).take i)
      = some (JTree.leaf s)) :
    getNestedValue (setNestedKey D key v) key = some v ∧
    getNestedVal (JTree.node (setNestedKey D key v)) ((splitDot key).take i)
      = some (JTree.node (chainObj ((splitDot key).drop i) v)) :=
  ⟨getNestedVal_setNestedGo (splitDot key) D v (validKey_parts_ne_nil key hk),
   setNestedGo_leaf_prefix (splitDot key) D v i s h1 h2 hleaf⟩

/-- Witness for C10 at a concrete input: the existing leaf at `a` is
destroyed and replaced by a fresh chain. -/
theorem c10_set_replaces_leaf_witness :
    validKey "a.b" = true ∧ (0 : Nat) < 1 ∧ 1 < (splitDot "a.b").length ∧
    getNestedVal (JTree.node [("a", JTree.leaf "old")])
      ((splitDot "a.b").take 1) = some (JTree.leaf "old") ∧
    (getNestedValue (setNestedKey [("a", JTree.leaf "old")] "a.b"
        (JTree.leaf "new")) "a.b" = some (JTree.leaf "new") ∧
      getNestedVal (JTree.node (setNestedKey [("a", JTree.leaf "old")] "a.b"
        (JTree.leaf "new"))) ((splitDot "a.b").take 1)
        = some (JTree.node (chainObj ((splitDot "a.b").drop 1)
            (JTree.leaf "new")))) :=
  ⟨by decide, by decide, by decide, rfl,
   c10_set_replaces_leaf [("a", JTree.leaf "old")] "a.b" (JTree.leaf "new")
     (by decide) 1 "old" (by decide) (by decide) rfl⟩

/-- C5: when the key is already present in at least one manifest
language's document, create-key returns Conflict (409) and performs no
writes: the returned state (language documents, manifest and version) is
exactly the input state. -/
theorem c5_create_key_conflict (st : ServerState) (key : String)
    (translations : List (String × String)) (hk : key ≠ "")
    (hex : ∃ l ∈ st.languages,
      langHasKey st.docs l.code (splitDot key) = true) :
    createKey st key translations = (.conflict, st) := by
  unfold createKey
  rw [if_neg hk]
  dsimp only
  rw [if_pos]
  obtain ⟨l, hl, hh⟩ := hex
  exact List.any_eq_true.mpr ⟨l, hl, hh⟩

/-- Witness for C5 at a concrete input. -/
theorem c5_create_key_conflict_witness :
    ("menu.title" : String) ≠ "" ∧
    (∃ l ∈ [LangDesc.mk "a" "A" "A" true "a.json"],
      langHasKey [("a", [("menu",
        JTree.node [("title", JTree.leaf "X")])])] l.code
        (splitDot "menu.title") = true) ∧
    createKey
      (ServerState.mk [LangDesc.mk "a" "A" "A" true "a.json"] "a" "a"
        (1, 0, 0) [("a", [("menu", JTree.node [("title", JTree.leaf "X")])])])
      "menu.title" [("a", "Y")]
      = (.conflict,
         ServerState.mk [LangDesc.mk "a" "A" "A" true "a.json"] "a" "a"
           (1, 0, 0)
           [("a", [("menu", JTree.node [("title", JTree.leaf "X")])])]) :=
  ⟨by decide,
   ⟨LangDesc.mk "a" "A" "A" true "a.json", by simp, by rfl⟩,
   c5_create_key_conflict _ "menu.title" [("a", "Y")] (by decide)
     ⟨LangDesc.mk "a" "A" "A" true "a.json", by simp, by rfl⟩⟩

/-- `findIndex` succeeds when some manifest entry carries the code. -/
theorem findLangIdx_isSome_of_mem :
    ∀ (langs : List LangDesc) (code : String),
      (∃ l ∈ langs, l.code = code) →
      (findLangIdx langs code).isSome = true := by
  intro langs code h
  induction langs with
  | nil => obtain ⟨l, hl, _⟩ := h; cases hl
  | cons hd tl ih =>
      obtain ⟨l, hl, hc⟩ := h
      rcases List.mem_cons.mp hl with rfl | hmem
      · simp [findLangIdx, hc]
      · by_cases hh : hd.code = code
        · simp [findLangIdx, hh]
        · simp only [findLangIdx, if_neg hh]
          obtain ⟨i, hi⟩ := Option.isSome_iff_exists.mp (ih ⟨l, hmem, hc⟩)
          simp [hi]

/-- `findIndex` fails when no manifest entry carries the code. -/
theorem findLangIdx_eq_none :
    ∀ (langs : List LangDesc) (code : String),
      (∀ l ∈ langs, l.code ≠ code) → findLangIdx langs code = none := by
  intro langs code h
  induction langs with
  | nil => rfl
  | cons hd tl ih =>
      simp only [findLangIdx, if_neg (h hd (List.mem_cons_self _ _)),
        ih (fun l hl => h l (List.mem_cons_of_mem _ hl))]
      rfl

/-- C8: delete-language on a protected code present in the manifest
returns the Protected error and leaves the state (language list, version,
default and fallback language) exactly as before; delete-language on a
code absent from the manifest returns NotFound. -/
theorem c8_delete_language (st : ServerState) (code : String) :
    (protectedLanguages.contains code = true →
      (∃ l ∈ st.languages, l.code = code) →
      deleteLanguage st code = (.protectedLang, st)) ∧
    ((∀ l ∈ st.languages, l.code ≠ code) →
      deleteLanguage st code = (.notFound, st)) := by
  constructor
  · intro hprot hex
    unfold deleteLanguage
    obtain ⟨idx, hfi⟩ := Option.isSome_iff_exists.mp
      (findLangIdx_isSome_of_mem st.languages code hex)
    rw [hfi]
    dsimp only
    rw [if_pos hprot]
  · intro habs
    unfold deleteLanguage
    rw [findLangIdx_eq_none st.languages code habs]

/-- Witness for C8 at concrete inputs: deleting protected `zh-CN` when
present, and deleting an absent code. -/
theorem c8_delete_language_witness :
    deleteLanguage
      (ServerState.mk [LangDesc.mk "zh-CN" "Chinese" "中文" true
        "zh-CN.json"] "zh-CN" "zh-CN" (1, 0, 0) []) "zh-CN"
      = (.protectedLang,
         ServerState.mk [LangDesc.mk "zh-CN" "Chinese" "中文" true
           "zh-CN.json"] "zh-CN" "zh-CN" (1, 0, 0) []) ∧
    deleteLanguage
      (ServerState.mk [LangDesc.mk "zh-CN" "Chinese" "中文" true
        "zh-CN.json"] "zh-CN" "zh-CN" (1, 0, 0) []) "fr-FR"
      = (.notFound,
         ServerState.mk [LangDesc.mk "zh-CN" "Chinese" "中文" true
           "zh-CN.json"] "zh-CN" "zh-CN" (1, 0, 0) []) :=
  ⟨(c8_delete_language _ "zh-CN").1 (by decide)
     ⟨LangDesc.mk "zh-CN" "Chinese" "中文" true "zh-CN.json", by simp, rfl⟩,
   (c8_delete_language _ "fr-FR").2 (by decide)⟩

/-- C9: every batched key mutation bumps the version exactly once after
all languages are processed: `propagateKeyToAllLanguages` bumps once
unconditionally, create-key (with at least one provided translation and no
conflict) bumps exactly once through its propagation, and update-key bumps
exactly once. -/
theorem c9_single_version_bump (st : ServerState) (key : String)
    (hk : key ≠ "") :
    (∀ parts juc uv pm,
      (propagateKeyToAllLanguages st parts juc uv pm).version
        = incrementVersionTriple st.version) ∧
    (∀ translations, translations ≠ [] →
      (st.languages.any fun lang =>
        langHasKey st.docs lang.code (splitDot key)) = false →
      ((createKey st key translations).2).version
        = incrementVersionTriple st.version) ∧
    (∀ translations,
      ((updateKey st key translations).2).version
        = incrementVersionTriple st.version) := by
  refine ⟨fun parts juc uv pm => rfl, ?_, fun translations => ?_⟩
  · intro tr htr hnc
    unfold createKey
    rw [if_neg hk]
    dsimp only
    rw [if_neg (by rw [hnc]; exact Bool.false_ne_true)]
    rw [if_neg (by
      intro hemp
      exact htr (List.isEmpty_iff.mp hemp))]
    rfl
  · unfold updateKey
    rw [if_neg hk]

/-- Witness for C9 at a concrete input. -/
theorem c9_single_version_bump_witness :
    ("a.b" : String) ≠ "" ∧
    ((propagateKeyToAllLanguages
        (ServerState.mk [] "a" "a" (1, 0, 0) []) ["a", "b"] none ""
        none).version = incrementVersionTriple (1, 0, 0) ∧
      ((createKey (ServerState.mk [] "a" "a" (1, 0, 0) []) "a.b"
        [("a", "v")]).2).version = incrementVersionTriple (1, 0, 0) ∧
      ((updateKey (ServerState.mk [] "a" "a" (1, 0, 0) []) "a.b"
        [("a", "v")]).2).version = incrementVersionTriple (1, 0, 0)) :=
  ⟨by decide,
   (c9_single_version_bump (ServerState.mk [] "a" "a" (1, 0, 0) []) "a.b"
      (by decide)).1 ["a", "b"] none "" none,
   (c9_single_version_bump (ServerState.mk [] "a" "a" (1, 0, 0) []) "a.b"
      (by decide)).2.1 [("a", "v")] (by simp) (by rfl),
   (c9_single_version_bump (ServerState.mk [] "a" "a" (1, 0, 0) []) "a.b"
      (by decide)).2.2 [("a", "v")]⟩

/-- C7: delete-key (with pruning) on a key present in no manifest
language's document reports success, modifies no document and performs no
version bump; when the key is present in at least one language it is
deleted (with cascading prune) from every language where present, the
version is bumped exactly once, and the manifest languages are
unchanged. -/
theorem c7_delete_key (st : ServerState) (key : String)
    (hk : validKey key = true)
    (hnd : (st.languages.map LangDesc.code).Nodup) :
    ((∀ l ∈ st.languages,
        langHasKey st.docs l.code (splitDot key) = false) →
      deleteKey st key true = (.ok, st)) ∧
    ((∃ l ∈ st.languages,
        langHasKey st.docs l.code (splitDot key) = true) →
      (deleteKey st key true).1 = .ok ∧
      ((deleteKey st key true).2).version
        = incrementVersionTriple st.version ∧
      ((deleteKey st key true).2).languages = st.languages ∧
      ∀ l ∈ st.languages, ∀ d, lookupDoc st.docs l.code = some d →
        lookupDoc ((deleteKey st key true).2).docs l.code
          = some (deleteNestedGo true d (splitDot key)).1) := by
  have hne : splitDot key ≠ [] := validKey_parts_ne_nil key hk
  have hkey : key ≠ "" := validKey_ne_empty key hk
  have hguard : deleteKey st key true =
      (if (st.languages.foldl (deleteKeyStep (splitDot key) true)
            (st.docs, [])).2.isEmpty then
        (.ok,
          { st with
            docs := (st.languages.foldl (deleteKeyStep (splitDot key) true)
              (st.docs, [])).1 })
       else
        (.ok,
          { st with
            docs := (st.languages.foldl (deleteKeyStep (splitDot key) true)
              (st.docs, [])).1
            version := incrementVersionTriple st.version })) := by
    unfold deleteKey
    rw [if_neg hkey, hk]
    rfl
  constructor
  · intro h0
    have hfold : st.languages.foldl (deleteKeyStep (splitDot key) true)
        (st.docs, []) = (st.docs, []) := by
      refine deleteKey_fold_noop (splitDot key) true st.languages st.docs []
        (fun l hl d hld => ?_)
      have h1 := h0 l hl
      unfold langHasKey at h1
      rw [hld] at h1
      rw [deleteNestedGo_snd_eq_check (splitDot key) d true hne]
      exact h1
    rw [hguard, hfold]
    rfl
  · intro hex
    have hwit : ∃ l ∈ st.languages, ∃ d,
        lookupDoc st.docs l.code = some d ∧
        (deleteNestedGo true d (splitDot key)).2 = true := by
      obtain ⟨l, hl, hh⟩ := hex
      unfold langHasKey at hh
      cases hld : lookupDoc st.docs l.code with
      | none => rw [hld] at hh; simp at hh
      | some d =>
          rw [hld] at hh
          refine ⟨l, hl, d, hld, ?_⟩
          rw [deleteNestedGo_snd_eq_check (splitDot key) d true hne]
          exact hh
    have hdel : (st.languages.foldl (deleteKeyStep (splitDot key) true)
        (st.docs, [])).2 ≠ [] :=
      deleteKey_fold_deleted_ne (splitDot key) true st.languages st.docs []
        hnd hwit
    rw [hguard, if_neg (fun hemp => hdel (List.isEmpty_iff.mp hemp))]
    refine ⟨rfl, rfl, rfl, ?_⟩
    intro l hl d hld
    show lookupDoc (st.languages.foldl (deleteKeyStep (splitDot key) true)
      (st.docs, [])).1 l.code = _
    rw [deleteKey_fold_fst, foldl_lookup_own (deleteDocsStep (splitDot key)
        true) (deleteDocsRes (splitDot key) true)
        (deleteDocsStep_other (splitDot key) true)
        (deleteDocsStep_own (splitDot key) true)
        st.languages st.docs l hnd hl]
    unfold deleteDocsRes
    rw [hld]
    dsimp only
    by_cases hrem : (deleteNestedGo true d (splitDot key)).2
    · rw [if_pos hrem]
    · rw [if_neg hrem,
        deleteNestedGo_fst_of_not_removed (splitDot key) d true
          (Bool.eq_false_iff.mpr hrem)]

/-- Witness for C7 at a concrete input: one language contains the key,
another does not. -/
theorem c7_delete_key_witness :
    validKey "a.b" = true ∧
    (∃ l ∈ [LangDesc.mk "en" "E" "E" true "en.json",
            LangDesc.mk "fr" "F" "F" true "fr.json"],
      langHasKey [("en", [("a", JTree.node [("b", JTree.leaf "x")])]),
        ("fr", [])] l.code (splitDot "a.b") = true) ∧
    ((deleteKey (ServerState.mk
        [LangDesc.mk "en" "E" "E" true "en.json",
         LangDesc.mk "fr" "F" "F" true "fr.json"] "en" "en" (1, 0, 0)
        [("en", [("a", JTree.node [("b", JTree.leaf "x")])]),
         ("fr", [])]) "a.b" true).1 = .ok ∧
      ((deleteKey (ServerState.mk
        [LangDesc.mk "en" "E" "E" true "en.json",
         LangDesc.mk "fr" "F" "F" true "fr.json"] "en" "en" (1, 0, 0)
        [("en", [("a", JTree.node [("b", JTree.leaf "x")])]),
         ("fr", [])]) "a.b" true).2).version
        = incrementVersionTriple (1, 0, 0)) := by
  refine ⟨by decide, ⟨LangDesc.mk "en" "E" "E" true "en.json",
    by simp, by rfl⟩, ?_⟩
  have h := (c7_delete_key (ServerState.mk
      [LangDesc.mk "en" "E" "E" true "en.json",
       LangDesc.mk "fr" "F" "F" true "fr.json"] "en" "en" (1, 0, 0)
      [("en", [("a", JTree.node [("b", JTree.leaf "x")])]),
       ("fr", [])]) "a.b" (by decide) (by simp)).2
    ⟨LangDesc.mk "en" "E" "E" true "en.json", by simp, by rfl⟩
  exact ⟨h.1, h.2.1⟩

/-- C6 counterexample: renaming `a.b` to `a.b.c` (no conflict, since
`a.b.c` resolves through the string leaf at `a.b` to nothing) succeeds,
but the value is NOT at the new key afterwards: copying the value creates
`a.b.c`, and the subsequent deletion of `a.b` removes the whole subtree,
leaving an empty document.  This refutes the claim that for every language
where the old key exists its value is copied to the new key location. -/
theorem c6_rename_key_counterexample :
    getNestedValue [("a", JTree.node [("b", JTree.leaf "V")])] "a.b"
      = some (JTree.leaf "V") ∧
    (renameKey (ServerState.mk [LangDesc.mk "en" "E" "E" true "en.json"]
      "en" "en" (1, 0, 0)
      [("en", [("a", JTree.node [("b", JTree.leaf "V")])])])
      "a.b" "a.b.c" false).1 = .ok ∧
    lookupDoc ((renameKey (ServerState.mk [LangDesc.mk "en" "E" "E" true
      "en.json"] "en" "en" (1, 0, 0)
      [("en", [("a", JTree.node [("b", JTree.leaf "V")])])])
      "a.b" "a.b.c" false).2).docs "en" = some [] ∧
    getNestedValue [] "a.b.c" = none :=
  ⟨rfl, rfl, rfl, rfl⟩

/-- C6 (amended): when the new key already exists in some language and the
caller did not request overwrite, rename-key fails with Conflict (409) and
the state (documents and version) is unchanged.  When no such conflict
exists (or overwrite is requested), and additionally the old and new key
paths diverge (neither is a dot-path prefix of the other — otherwise the
deletion of the old key destroys the freshly copied value), then for every
language where the old key exists its value is at the new key location and
the old key is deleted with cascading prune; the version is bumped once. -/
theorem c6_rename_key_amended (st : ServerState) (oldKey newKey : String)
    (overwrite : Bool) (h1 : validKey oldKey = true)
    (h2 : validKey newKey = true) (hne : oldKey ≠ newKey)
    (hnd : (st.languages.map LangDesc.code).Nodup) :
    ((st.languages.any fun lang =>
        langHasNewKey st.docs lang.code (splitDot newKey)) = true →
      overwrite = false →
      renameKey st oldKey newKey overwrite = (.conflict, st)) ∧
    (((st.languages.any fun lang =>
        langHasNewKey st.docs lang.code (splitDot newKey)) = false ∨
      overwrite = true) →
      diverges (splitDot oldKey) (splitDot newKey) = true →
      (renameKey st oldKey newKey overwrite).1 = .ok ∧
      ((renameKey st oldKey newKey overwrite).2).version
        = incrementVersionTriple st.version ∧
      ((renameKey st oldKey newKey overwrite).2).languages = st.languages ∧
      ∀ l ∈ st.languages, ∀ d, lookupDoc st.docs l.code = some d →
        ∀ val, getNestedVal (JTree.node d) (splitDot oldKey) = some val →
          getNestedVal (JTree.node ((lookupDoc
              ((renameKey st oldKey newKey overwrite).2).docs
              l.code).getD [])) (splitDot newKey) = some val ∧
          getNestedVal (JTree.node ((lookupDoc
              ((renameKey st oldKey newKey overwrite).2).docs
              l.code).getD [])) (splitDot oldKey) = none) := by
  have hko : oldKey ≠ "" := validKey_ne_empty oldKey h1
  have hkn : newKey ≠ "" := validKey_ne_empty newKey h2
  have holdne : splitDot oldKey ≠ [] := validKey_parts_ne_nil oldKey h1
  have hnewne : splitDot newKey ≠ [] := validKey_parts_ne_nil newKey h2
  have hguard : renameKey st oldKey newKey overwrite =
      (if (st.languages.any fun lang =>
            langHasNewKey st.docs lang.code (splitDot newKey)) && !overwrite
        then (.conflict, st)
       else
        (.ok,
          { st with
            docs := st.languages.foldl (renameStep (splitDot oldKey)
              (splitDot newKey) overwrite) st.docs
            version := incrementVersionTriple st.version })) := by
    unfold renameKey
    rw [decide_eq_false hko, decide_eq_false hkn]
    simp only [Bool.or_self, Bool.false_eq_true, if_false]
    rw [if_neg hne, h1, h2]
    rfl
  constructor
  · intro hc how
    rw [hguard, hc, how]
    rfl
  · intro hok hdiv
    have hdiv' : diverges (splitDot newKey) (splitDot oldKey) = true := by
      rw [diverges_symm]
      exact hdiv
    have hcond : ((st.languages.any fun lang =>
        langHasNewKey st.docs lang.code (splitDot newKey)) && !overwrite)
        = false := by
      rcases hok with hfalse | htrue
      · rw [hfalse]
        rfl
      · rw [htrue]
        simp
    rw [hguard, hcond, if_neg Bool.false_ne_true]
    refine ⟨rfl, rfl, rfl, ?_⟩
    intro l hl d hld val hval
    rw [foldl_lookup_own (renameStep (splitDot oldKey) (splitDot newKey)
        overwrite) (renameRes (splitDot oldKey) (splitDot newKey) overwrite)
        (renameStep_other (splitDot oldKey) (splitDot newKey) overwrite)
        (renameStep_own (splitDot oldKey) (splitDot newKey) overwrite)
        st.languages st.docs l hnd hl]
    unfold renameRes
    rw [hld]
    simp only [Option.getD]
    unfold renameWrite
    rw [hval]
    dsimp only
    have hcondw : ((getNestedVal (JTree.node d)
        (splitDot newKey)).isNone || overwrite) = true := by
      rcases hok with hfalse | htrue
      · have hlang : langHasNewKey st.docs l.code (splitDot newKey)
            = false := by
          rw [List.any_eq_false] at hfalse
          have := hfalse l hl
          exact Bool.eq_false_iff.mpr this
        unfold langHasNewKey at hlang
        rw [hld] at hlang
        have hlang2 : (getNestedVal (JTree.node d)
            (splitDot newKey)).isSome = false := hlang
        cases hx : getNestedVal (JTree.node d) (splitDot newKey) with
        | none => rfl
        | some t => rw [hx] at hlang2; simp at hlang2
      · rw [htrue]
        simp
    rw [if_pos hcondw]
    constructor
    · rw [getNestedVal_deleteNestedGo_other (splitDot oldKey)
        (splitDot newKey) (setNestedGo d (splitDot newKey) val) hdiv]
      exact getNestedVal_setNestedGo (splitDot newKey) d val hnewne
    · have hset_old : getNestedVal (JTree.node (setNestedGo d
          (splitDot newKey) val)) (splitDot oldKey) = some val := by
        rw [getNestedVal_setNestedGo_other (splitDot newKey)
          (splitDot oldKey) d val hdiv']
        exact hval
      exact (deleteNestedGo_of_defined (splitDot oldKey)
        (setNestedGo d (splitDot newKey) val) holdne
        (by rw [hset_old]; rfl)).2.1

/-- Witness for the amended C6 at a concrete input: renaming
`menu.title` to `nav.title` with no conflict. -/
theorem c6_rename_key_amended_witness :
    validKey "menu.title" = true ∧ validKey "nav.title" = true ∧
    ("menu.title" : String) ≠ "nav.title" ∧
    diverges (splitDot "menu.title") (splitDot "nav.title") = true ∧
    ((renameKey (ServerState.mk [LangDesc.mk "en" "E" "E" true "en.json"]
        "en" "en" (1, 0, 0)
        [("en", [("menu", JTree.node [("title", JTree.leaf "V")])])])
        "menu.title" "nav.title" false).1 = .ok ∧
      ((renameKey (ServerState.mk [LangDesc.mk "en" "E" "E" true "en.json"]
        "en" "en" (1, 0, 0)
        [("en", [("menu", JTree.node [("title", JTree.leaf "V")])])])
        "menu.title" "nav.title" false).2).version
        = incrementVersionTriple (1, 0, 0)) := by
  refine ⟨by decide, by decide, by decide, by decide, ?_⟩
  have h := (c6_rename_key_amended (ServerState.mk
      [LangDesc.mk "en" "E" "E" true "en.json"] "en" "en" (1, 0, 0)
      [("en", [("menu", JTree.node [("title", JTree.leaf "V")])])])
      "menu.title" "nav.title" false (by decide) (by decide) (by decide)
      (by simp)).2 (Or.inl (by rfl)) (by decide)
  exact ⟨h.1, h.2.1⟩

/-- The propagation probe never finds a key in an empty document. -/
theorem probeExists_nil (parts : List String) (h : parts ≠ []) :
    probeExists [] parts = false := by
  cases parts with
  | nil => exact absurd rfl h
  | cons p rest =>
      cases rest with
      | nil => rfl
      | cons q rest' => rfl

/-- C1 counterexample: propagate over a manifest whose single language
already holds a non-empty value for the key, with a provided-values map
supplying nothing for that language: the key's value stays `"X"` and is
not the empty string the claim requires. -/
theorem c1_propagate_counterexample :
    ([] : List (String × String)).lookup "en" = none ∧
    getNestedVal (JTree.node ((lookupDoc (propagateKeyToAllLanguages
      (ServerState.mk [LangDesc.mk "en" "E" "E" true "en.json"] "en" "en"
        (1, 0, 0) [("en", [("m", JTree.node [("t", JTree.leaf "X")])])])
      (splitDot "m.t") none "" (some [])).docs "en").getD []))
      (splitDot "m.t") = some (JTree.leaf "X") ∧
    ("X" : String) ≠ "" :=
  ⟨rfl, rfl, by decide⟩

/-- C1 (amended): after `propagate(K, providedValues, nil)` over the
manifest languages, the key is defined in every language's document; its
value equals `providedValues[code]` when supplied, and equals the empty
string when `providedValues` supplies nothing for that code and the key
was absent from that language's document before the call (an already
present value is otherwise retained). -/
theorem c1_propagate_amended (st : ServerState) (key : String)
    (pm : List (String × String)) (hk : validKey key = true)
    (hnd : (st.languages.map LangDesc.code).Nodup) :
    ∀ l ∈ st.languages,
      checkKeyExistsT (JTree.node ((lookupDoc (propagateKeyToAllLanguages st
        (splitDot key) none "" (some pm)).docs l.code).getD []))
        (splitDot key) = true ∧
      (∀ v, pm.lookup l.code = some v →
        getNestedVal (JTree.node ((lookupDoc (propagateKeyToAllLanguages st
          (splitDot key) none "" (some pm)).docs l.code).getD []))
          (splitDot key) = some (JTree.leaf v)) ∧
      (pm.lookup l.code = none →
        langHasKey st.docs l.code (splitDot key) = false →
        getNestedVal (JTree.node ((lookupDoc (propagateKeyToAllLanguages st
          (splitDot key) none "" (some pm)).docs l.code).getD []))
          (splitDot key) = some (JTree.leaf "")) := by
  intro l hl
  have hne : splitDot key ≠ [] := validKey_parts_ne_nil key hk
  have hlook : lookupDoc (propagateKeyToAllLanguages st (splitDot key) none
      "" (some pm)).docs l.code = propagateRes (splitDot key) none ""
      (some pm) l (lookupDoc st.docs l.code) := by
    show lookupDoc (st.languages.foldl (propagateStep (splitDot key) none ""
      (some pm)) st.docs) l.code = _
    exact foldl_lookup_own (propagateStep (splitDot key) none "" (some pm))
      (propagateRes (splitDot key) none "" (some pm))
      (propagateStep_other (splitDot key) none "" (some pm))
      (propagateStep_own (splitDot key) none "" (some pm))
      st.languages st.docs l hnd hl
  rw [hlook]
  unfold propagateRes
  by_cases hpe : probeExists ((lookupDoc st.docs l.code).getD [])
      (splitDot key) = true
  · have hw : propagateWrite (splitDot key) none "" (some pm) l.code
        ((lookupDoc st.docs l.code).getD []) =
        (match pm.lookup l.code with
         | some v => some (setNestedGo ((lookupDoc st.docs l.code).getD [])
             (splitDot key) (JTree.leaf v))
         | none => none) := by
      unfold propagateWrite
      rw [hpe]
      rfl
    rw [hw]
    cases hpl : pm.lookup l.code with
    | some v =>
        dsimp only
        simp only [Option.getD]
        refine ⟨?_, ?_, ?_⟩
        · rw [checkKeyExistsT_eq_isSome,
            getNestedVal_setNestedGo _ _ _ hne]
          rfl
        · intro v' hv'
          rw [Option.some_inj] at hv'
          rw [getNestedVal_setNestedGo _ _ _ hne, hv']
        · intro h3
          exact absurd h3 (by simp)
    | none =>
        dsimp only
        cases hod : lookupDoc st.docs l.code with
        | none =>
            rw [hod] at hpe
            simp only [Option.getD] at hpe
            exact absurd hpe (by rw [probeExists_nil _ hne]; simp)
        | some data =>
            rw [hod] at hpe
            simp only [Option.getD] at hpe ⊢
            refine ⟨?_, ?_, ?_⟩
            · rw [checkKeyExistsT_eq_isSome, ← probeExists_eq_isSome]
              exact hpe
            · intro v hv
              exact absurd hv (by simp)
            · intro _ h3
              unfold langHasKey at h3
              rw [hod] at h3
              have h4 : checkKeyExistsT (JTree.node data) (splitDot key)
                  = false := h3
              rw [checkKeyExistsT_eq_isSome, ← probeExists_eq_isSome] at h4
              exact absurd hpe (by rw [h4]; simp)
  · have hpe' : probeExists ((lookupDoc st.docs l.code).getD [])
        (splitDot key) = false := Bool.eq_false_iff.mpr hpe
    have hw : propagateWrite (splitDot key) none "" (some pm) l.code
        ((lookupDoc st.docs l.code).getD []) =
        some (setNestedGo ((lookupDoc st.docs l.code).getD [])
          (splitDot key)
          (JTree.leaf ((pm.lookup l.code).getD ""))) := by
      unfold propagateWrite
      rw [hpe']
      rfl
    rw [hw]
    dsimp only
    simp only [Option.getD]
    refine ⟨?_, ?_, ?_⟩
    · rw [checkKeyExistsT_eq_isSome, getNestedVal_setNestedGo _ _ _ hne]
      rfl
    · intro v hv
      rw [getNestedVal_setNestedGo _ _ _ hne, hv]
    · intro h3 _
      rw [getNestedVal_setNestedGo _ _ _ hne, h3]

/-- Witness for the amended C1 at a concrete input: the language `fr` gets
the empty string, the key being absent there and unprovided. -/
theorem c1_propagate_amended_witness :
    validKey "k.a" = true ∧
    (checkKeyExistsT (JTree.node ((lookupDoc (propagateKeyToAllLanguages
        (ServerState.mk [LangDesc.mk "en" "E" "E" true "en.json",
          LangDesc.mk "fr" "F" "F" true "fr.json"] "en" "en" (1, 0, 0)
          [("en", [])]) (splitDot "k.a") none ""
        (some [("en", "Hello")])).docs "fr").getD []))
        (splitDot "k.a") = true ∧
      getNestedVal (JTree.node ((lookupDoc (propagateKeyToAllLanguages
        (ServerState.mk [LangDesc.mk "en" "E" "E" true "en.json",
          LangDesc.mk "fr" "F" "F" true "fr.json"] "en" "en" (1, 0, 0)
          [("en", [])]) (splitDot "k.a") none ""
        (some [("en", "Hello")])).docs "fr").getD []))
        (splitDot "k.a") = some (JTree.leaf "")) := by
  have h := c1_propagate_amended (ServerState.mk
      [LangDesc.mk "en" "E" "E" true "en.json",
       LangDesc.mk "fr" "F" "F" true "fr.json"] "en" "en" (1, 0, 0)
      [("en", [])]) "k.a" [("en", "Hello")] (by decide) (by simp)
      (LangDesc.mk "fr" "F" "F" true "fr.json") (by simp)
  exact ⟨by decide, h.1, h.2.2 rfl rfl⟩

